import Mathlib

set_option autoImplicit false
set_option maxHeartbeats 1000000

/-!
Verification development for the classy document classifier
(src/main.rs).  The embedding covers the two core components:

* the rule compiler `parse_layout` (src/main.rs lines 168-213), which
  flattens a yaml configuration tree into `ClassifierPath` rules, and
* the text matcher `ClassifierPath::matches` (lines 57-64) together
  with the per-document filtering pass of `classify_pdf` (lines 124-125).

Rust `Vec` values are Lean lists, `PathBuf` values are lists of path
segments, and fallible code returns `Except`, where the dedicated error
`PErr.panic` models a Rust panic (a failed `unwrap`).
-/

/-- Model of the subset of yaml_rust's `Yaml` value type that a
configuration tree can use: string, integer, boolean and null scalars,
arrays, and hashes.  A hash is its insertion-ordered association list,
mirroring `yaml_rust`'s `LinkedHashMap`. -/
inductive Yaml : Type where
  | str (s : String)
  | int (n : Int)
  | bool (b : Bool)
  | null
  | arr (xs : List Yaml)
  | hash (es : List (Yaml × Yaml))

namespace Yaml

mutual

/-- Computable structural size of a `Yaml` value; used as the fuel
measure for the fuel-indexed functions below. -/
def ysize : Yaml → Nat
  | .str _ => 1
  | .int _ => 1
  | .bool _ => 1
  | .null => 1
  | .arr xs => 1 + ysizeL xs
  | .hash es => 1 + ysizeP es

/-- Computable structural size of a list of `Yaml` values. -/
def ysizeL : List Yaml → Nat
  | [] => 1
  | y :: ys => 1 + ysize y + ysizeL ys

/-- Computable structural size of a hash entry list. -/
def ysizeP : List (Yaml × Yaml) → Nat
  | [] => 1
  | (k, v) :: es => 1 + ysize k + ysize v + ysizeP es

end

mutual

/-- Structural equality test on `Yaml` values, modelling the derived
`PartialEq` that `LinkedHashMap::get` uses on keys. -/
def beq : Yaml → Yaml → Bool
  | .str x, .str y => x = y
  | .int x, .int y => x = y
  | .bool x, .bool y => x = y
  | .null, .null => true
  | .arr xs, .arr ys => beqL xs ys
  | .hash es, .hash fs => beqP es fs
  | _, _ => false

/-- Structural equality on lists of `Yaml` values. -/
def beqL : List Yaml → List Yaml → Bool
  | [], [] => true
  | x :: xs, y :: ys => beq x y && beqL xs ys
  | _, _ => false

/-- Structural equality on hash entry lists. -/
def beqP : List (Yaml × Yaml) → List (Yaml × Yaml) → Bool
  | [], [] => true
  | (k1, v1) :: xs, (k2, v2) :: ys => beq k1 k2 && beq v1 v2 && beqP xs ys
  | _, _ => false

end

/-- Model of `Yaml::as_str`: `some` exactly on the string variant. -/
def as_str : Yaml → Option String
  | .str s => some s
  | _ => none

/-- Model of `Yaml::as_vec`: `some` exactly on the array variant. -/
def as_vec : Yaml → Option (List Yaml)
  | .arr xs => some xs
  | _ => none

/-- Model of `Yaml::as_hash`: `some` exactly on the hash variant. -/
def as_hash : Yaml → Option (List (Yaml × Yaml))
  | .hash es => some es
  | _ => none

/-- Model of `LinkedHashMap::get` on the association list underlying a
hash: the value of the first entry whose key equals `k`. -/
def hget (es : List (Yaml × Yaml)) (k : Yaml) : Option Yaml :=
  match es with
  | [] => none
  | (k2, v) :: rest => if beq k2 k then some v else hget rest k

end Yaml

instance {ε α : Type} [DecidableEq ε] [DecidableEq α] : DecidableEq (Except ε α) :=
  fun a b =>
    match a, b with
    | .ok x, .ok y =>
        if h : x = y then isTrue (by rw [h]) else isFalse (by simp [h])
    | .error x, .error y =>
        if h : x = y then isTrue (by rw [h]) else isFalse (by simp [h])
    | .ok _, .error _ => isFalse (by simp)
    | .error _, .ok _ => isFalse (by simp)

/-- Model of `struct ClassifierPath` (src/main.rs lines 49-53): the
destination path, as its list of segments ordered root to leaf, and the
keyword list. -/
structure ClassifierPath : Type where
  path : List String
  keywords : List String
deriving DecidableEq

/-- Model of `type ClassifierPaths = Vec<ClassifierPath>`. -/
abbrev ClassifierPaths : Type := List ClassifierPath

/-- The spec's `ConfigError` taxonomy for malformed configuration
nodes.  Each constructor stands for one `context` message attached in
`parse_layout`: `InvalidNode` for a node that is not a hash,
`MissingField "dir"` for a missing name key, `InvalidKeywords` (carrying
the path of the rule under construction at that point) for a keywords
value that is not an array, and `InvalidChildren` for a sub value that
is not an array. -/
inductive ConfigError : Type where
  | MissingField (f : String)
  | InvalidKeywords (path : List String)
  | InvalidChildren
  | InvalidNode
deriving DecidableEq

/-- Failure of a modelled Rust computation: `panic` models a Rust panic
(a failed `unwrap`), `err e` models an error returned through
`anyhow::Result`. -/
inductive PErr : Type where
  | panic
  | err (e : ConfigError)
deriving DecidableEq

/-! ## Word-boundary regex model

`ClassifierPath::matches` builds, for each keyword, the pattern
`"\\b" + keyword + "\\b"` and compiles it with `regex::Regex::new`,
panicking via `unwrap` when compilation fails.  The keyword is embedded
without escaping, so its characters are interpreted as regex syntax.

The model below covers the fragment of the regex crate's syntax that
such patterns use when the keyword is made of literal characters,
dots, caret/dollar anchors and backslash escapes of punctuation.
Keywords using the crate's composite operators (grouping, character
classes, repetition, alternation) are outside the modelled fragment and
their compilation is mapped to failure; for every keyword at which a
theorem below evaluates the matcher the model agrees with the real
crate — in particular a lone `(` genuinely fails to compile (unclosed
group) and `.` is genuinely a wildcard. -/

/-- Word-character test used by the word-boundary assertion (the ASCII
fragment of the regex crate's `\w`). -/
def isWordChar (c : Char) : Bool := c.isAlphanum || c = '_'

/-- Tokens of the modelled regex fragment: a literal character, the
`.` wildcard, the `\b` word-boundary assertion, and the start / end of
haystack anchors `^` and `$`. -/
inductive RTok : Type where
  | lit (c : Char)
  | dot
  | wordB
  | startA
  | endA
deriving DecidableEq

/-- Characters treated by the modelled pattern grammar as composite
regex operators (grouping, classes, repetition, alternation); a keyword
containing one of these bare is outside the modelled fragment and its
compilation is mapped to failure. -/
def isOpChar (c : Char) : Bool :=
  c = '(' || c = ')' || c = '[' || c = '*' || c = '+' || c = '?' || c = '|'

/-- Model of regex pattern compilation restricted to the fragment
described above, producing the token sequence or `none` on failure. -/
def parsePattern : List Char → Option (List RTok)
  | [] => some []
  | '\\' :: [] => none
  | '\\' :: c :: rest =>
      if c = 'b' then (parsePattern rest).map (fun ts => RTok.wordB :: ts)
      else if c.isAlphanum then none
      else (parsePattern rest).map (fun ts => RTok.lit c :: ts)
  | '.' :: rest => (parsePattern rest).map (fun ts => RTok.dot :: ts)
  | '^' :: rest => (parsePattern rest).map (fun ts => RTok.startA :: ts)
  | '$' :: rest => (parsePattern rest).map (fun ts => RTok.endA :: ts)
  | c :: rest =>
      if isOpChar c then none
      else (parsePattern rest).map (fun ts => RTok.lit c :: ts)

/-- Zero-width word-boundary test between the previous character
(`none` at the start of the haystack) and the rest of the haystack:
exactly one of the two sides is a word character. -/
def atBoundary (prev : Option Char) (s : List Char) : Bool :=
  (match prev with | none => false | some c => isWordChar c)
    != (match s with | [] => false | c :: _ => isWordChar c)

/-- Whether the token sequence matches a prefix of `s`, where `prev` is
the character just before `s` in the haystack (`none` at its start). -/
def toksMatch : List RTok → Option Char → List Char → Bool
  | [], _, _ => true
  | RTok.wordB :: ts, prev, s => atBoundary prev s && toksMatch ts prev s
  | RTok.startA :: ts, prev, s => prev.isNone && toksMatch ts prev s
  | RTok.endA :: ts, prev, s => s.isEmpty && toksMatch ts prev s
  | RTok.lit c :: ts, _, s =>
      match s with
      | [] => false
      | x :: xs => x = c && toksMatch ts (some x) xs
  | RTok.dot :: ts, _, s =>
      match s with
      | [] => false
      | x :: xs => !(x = '\n') && toksMatch ts (some x) xs

/-- Whether the token sequence matches somewhere in the haystack
starting at the current position or later: the boolean semantics of
`Regex::is_match`. -/
def toksSearch (ts : List RTok) : Option Char → List Char → Bool
  | prev, s =>
      toksMatch ts prev s ||
        (match s with
         | [] => false
         | x :: xs => toksSearch ts (some x) xs)

/-- Model of
`regex::Regex::new(&["\\b", word, "\\b"].join("")).unwrap().is_match(text)`
from `ClassifierPath::matches`: `Except.error PErr.panic` models the
`unwrap` panic on a pattern that fails to compile. -/
def wordMatch (word text : String) : Except PErr Bool :=
  match parsePattern ('\\' :: 'b' :: (word.data ++ ['\\', 'b'])) with
  | none => Except.error PErr.panic
  | some ts => Except.ok (toksSearch ts none text.data)

/-- Model of `self.keywords.iter().all(...)` in
`ClassifierPath::matches`: evaluates `wordMatch` on each keyword in
order, short-circuiting at the first `false` and propagating a panic
raised by pattern compilation. -/
def allKw (text : String) : List String → Except PErr Bool
  | [] => Except.ok true
  | w :: ws => do
      let b ← wordMatch w text
      if b then allKw text ws else Except.ok false

/-- Model of `ClassifierPath::matches` (src/main.rs lines 57-64): all
keywords must match their word-boundary pattern and the keyword list
must be non-empty. -/
def ClassifierPath.matchesM (p : ClassifierPath) (text : String) :
    Except PErr Bool := do
  let contains ← allKw text p.keywords
  Except.ok (!p.keywords.isEmpty && contains)

/-- Model of the matching pass of `classify_pdf` (src/main.rs lines
124-125): `config.iter().filter(|path| path.matches(text)).collect()`,
keeping the rules in their original order; a panic inside any
`matches` call aborts the whole pass. -/
def classify_matches (text : String) : ClassifierPaths → Except PErr ClassifierPaths
  | [] => Except.ok []
  | r :: rs => do
      let b ← r.matchesM text
      let rest ← classify_matches text rs
      Except.ok (if b then r :: rest else rest)

/-! ## Rule compiler

`parse_layout` (src/main.rs lines 168-213) walks the list of sibling
configuration nodes.  For each node it validates the shape, emits the
node's own rule, recursively compiles the `sub` list and then prefixes
the parent's path segment and appends the parent's keywords to every
child rule.  The recursion is data-dependent (the child list is looked
up inside a hash), so the Lean embedding threads explicit fuel; the
fuel only forces termination and the wrappers `parse_node` and
`parse_layout` instantiate it with the structural size of the input, a
value the lemmas below prove sufficient. -/

/-- Model of the keyword extraction
`keywords.into_iter().map(|yaml| yaml.as_str().unwrap().to_string()).collect()`
(src/main.rs lines 187-189): panics at the first non-string element. -/
def kwStrings : List Yaml → Except PErr (List String)
  | [] => Except.ok []
  | y :: ys =>
      match y.as_str with
      | none => Except.error PErr.panic
      | some s => (kwStrings ys).map (fun t => s :: t)

/-- Model of the keyword-list resolution for one node (src/main.rs
lines 183-190): absent means no keywords, a non-array value is the
`InvalidKeywords` configuration error carrying the path built so far
(at this point just the node's own `dir` name), and an array is mapped
through `kwStrings`. -/
def kwRes (dir_params : List (Yaml × Yaml)) (name : String) :
    Except PErr (List String) :=
  match Yaml.hget dir_params (Yaml.str "keywords") with
  | none => Except.ok []
  | some kv =>
    match kv.as_vec with
    | none => Except.error (PErr.err (ConfigError.InvalidKeywords [name]))
    | some ws => kwStrings ws

mutual

/-- Fuel-indexed model of one iteration of the `parse_layout` loop body
for a single node `dir` (src/main.rs lines 174-210): validate the node,
build its own rule, recursively compile `sub`, then prefix the node's
path segment and append the node's keywords to every child rule. -/
def parseNodeF : Nat → Yaml → Except PErr ClassifierPaths
  | 0, _ => Except.error PErr.panic
  | fuel + 1, dir =>
    match dir.as_hash with
    | none => Except.error (PErr.err ConfigError.InvalidNode)
    | some dir_params =>
      match Yaml.hget dir_params (Yaml.str "dir") with
      | none => Except.error (PErr.err (ConfigError.MissingField "dir"))
      | some dir_name =>
        match dir_name.as_str with
        | none => Except.error PErr.panic
        | some name => do
          let kws ← kwRes dir_params name
          match Yaml.hget dir_params (Yaml.str "sub") with
          | none => Except.ok [⟨[name], kws⟩]
          | some sv =>
            match sv.as_vec with
            | none => Except.error (PErr.err ConfigError.InvalidChildren)
            | some ds => do
              let sub ← parseLayoutF fuel ds
              Except.ok (⟨[name], kws⟩ ::
                sub.map (fun it => ⟨name :: it.path, it.keywords ++ kws⟩))

/-- Fuel-indexed model of `parse_layout` (src/main.rs lines 168-213)
over a list of sibling nodes: the concatenation of each node's rules,
failing on the first node whose processing fails. -/
def parseLayoutF : Nat → List Yaml → Except PErr ClassifierPaths
  | 0, _ => Except.error PErr.panic
  | _ + 1, [] => Except.ok []
  | fuel + 1, dir :: rest => do
      let node ← parseNodeF fuel dir
      let r ← parseLayoutF fuel rest
      Except.ok (node ++ r)

end

/-- Processing of a single configuration node: `parseNodeF` with
sufficient fuel. -/
def parse_node (dir : Yaml) : Except PErr ClassifierPaths :=
  parseNodeF (Yaml.ysize dir) dir

/-- Model of `parse_layout`: `parseLayoutF` with sufficient fuel. -/
def parse_layout (layout : List Yaml) : Except PErr ClassifierPaths :=
  parseLayoutF (Yaml.ysizeL layout) layout

/-! Fuel elimination: any fuel at least the structural size of the
input gives the same result, so the clean unfolding equations below
never mention fuel again. -/

lemma except_bind_ok {ε α β : Type} (a : α) (f : α → Except ε β) :
    (Except.ok a >>= f : Except ε β) = f a := rfl

lemma except_bind_error {ε α β : Type} (e : ε) (f : α → Except ε β) :
    (Except.error e >>= f : Except ε β) = Except.error e := rfl

lemma except_map_ok {ε α β : Type} (a : α) (f : α → β) :
    Except.map f (Except.ok a : Except ε α) = Except.ok (f a) := rfl

lemma except_map_error {ε α β : Type} (e : ε) (f : α → β) :
    Except.map f (Except.error e : Except ε α) = Except.error e := rfl

lemma Yaml.ysize_pos (d : Yaml) : 1 ≤ ysize d := by
  cases d <;> simp [ysize]

lemma Yaml.ysizeL_pos (xs : List Yaml) : 1 ≤ ysizeL xs := by
  cases xs <;> simp [ysizeL] <;> omega

lemma Yaml.ysize_hget {es : List (Yaml × Yaml)} {k v : Yaml}
    (h : Yaml.hget es k = some v) : ysize v < ysizeP es := by
  induction es with
  | nil => simp [Yaml.hget] at h
  | cons e rest ih =>
    obtain ⟨k2, w⟩ := e
    simp only [Yaml.hget] at h
    by_cases hb : Yaml.beq k2 k
    · simp [hb] at h
      subst h
      simp [ysizeP]
      omega
    · simp [hb] at h
      have := ih h
      simp [ysizeP]
      omega

lemma Yaml.as_vec_eq {v : Yaml} {xs : List Yaml} (h : v.as_vec = some xs) :
    v = Yaml.arr xs := by
  cases v <;> simp [Yaml.as_vec] at h <;> simp [h]

lemma parseF_step : ∀ fuel : Nat,
    (∀ d, Yaml.ysize d ≤ fuel → parseNodeF (fuel + 1) d = parseNodeF fuel d) ∧
    (∀ xs, Yaml.ysizeL xs ≤ fuel →
      parseLayoutF (fuel + 1) xs = parseLayoutF fuel xs) := by
  intro fuel
  induction fuel with
  | zero =>
    constructor
    · intro d hd
      have := Yaml.ysize_pos d
      omega
    · intro xs hxs
      have := Yaml.ysizeL_pos xs
      omega
  | succ f ih =>
    constructor
    · intro d hd
      cases d with
      | hash es =>
        simp only [parseNodeF, Yaml.as_hash]
        cases hdir : Yaml.hget es (Yaml.str "dir") with
        | none => rfl
        | some dir_name =>
          cases hs : dir_name.as_str with
          | none => simp [hs]
          | some name =>
            cases hk : kwRes es name with
            | error e => simp [hs, hk, except_bind_ok, except_bind_error]
            | ok kws =>
              cases hsub : Yaml.hget es (Yaml.str "sub") with
              | none => simp [hs, hk, hsub, except_bind_ok, except_bind_error]
              | some sv =>
                cases hv : sv.as_vec with
                | none => simp [hs, hk, hsub, hv, except_bind_ok, except_bind_error]
                | some ds =>
                  have hsz : Yaml.ysizeL ds ≤ f := by
                    have h1 := Yaml.ysize_hget hsub
                    have h2 : Yaml.ysize sv = 1 + Yaml.ysizeL ds := by
                      rw [Yaml.as_vec_eq hv]; simp [Yaml.ysize]
                    simp [Yaml.ysize] at hd
                    omega
                  simp [hs, hk, hsub, hv, except_bind_ok, except_bind_error, ih.2 ds hsz]
      | str s => rfl
      | int n => rfl
      | bool b => rfl
      | null => rfl
      | arr xs => rfl
    · intro xs hxs
      cases xs with
      | nil => rfl
      | cons d rest =>
        simp only [parseLayoutF]
        simp only [Yaml.ysizeL] at hxs
        have h1 : Yaml.ysize d ≤ f := by
          have := Yaml.ysizeL_pos rest
          omega
        have h2 : Yaml.ysizeL rest ≤ f := by
          have := Yaml.ysize_pos d
          omega
        rw [ih.1 d h1, ih.2 rest h2]

lemma parseNodeF_mono (k fuel : Nat) (d : Yaml) (h : Yaml.ysize d ≤ fuel) :
    parseNodeF (fuel + k) d = parseNodeF fuel d := by
  induction k with
  | zero => rfl
  | succ n ih =>
    have : fuel + (n + 1) = (fuel + n) + 1 := by omega
    rw [this, (parseF_step (fuel + n)).1 d (by omega), ih]

lemma parseLayoutF_mono (k fuel : Nat) (xs : List Yaml)
    (h : Yaml.ysizeL xs ≤ fuel) :
    parseLayoutF (fuel + k) xs = parseLayoutF fuel xs := by
  induction k with
  | zero => rfl
  | succ n ih =>
    have : fuel + (n + 1) = (fuel + n) + 1 := by omega
    rw [this, (parseF_step (fuel + n)).2 xs (by omega), ih]

lemma parse_node_fuel {fuel : Nat} {d : Yaml} (h : Yaml.ysize d ≤ fuel) :
    parseNodeF fuel d = parse_node d := by
  unfold parse_node
  have h1 : fuel = Yaml.ysize d + (fuel - Yaml.ysize d) := by omega
  rw [h1, parseNodeF_mono _ _ _ (by omega)]

lemma parse_layout_fuel {fuel : Nat} {xs : List Yaml}
    (h : Yaml.ysizeL xs ≤ fuel) : parseLayoutF fuel xs = parse_layout xs := by
  unfold parse_layout
  have h1 : fuel = Yaml.ysizeL xs + (fuel - Yaml.ysizeL xs) := by omega
  rw [h1, parseLayoutF_mono _ _ _ (by omega)]

/-! Clean, fuel-free unfolding equations for the compiler. -/

lemma parse_layout_nil : parse_layout [] = Except.ok [] := rfl

lemma parse_layout_cons (d : Yaml) (rest : List Yaml) :
    parse_layout (d :: rest) =
      (do
        let node ← parse_node d
        let r ← parse_layout rest
        Except.ok (node ++ r)) := by
  show parseLayoutF (Yaml.ysizeL (d :: rest)) (d :: rest) = _
  have h1 : Yaml.ysizeL (d :: rest) = (Yaml.ysize d + Yaml.ysizeL rest) + 1 := by
    simp [Yaml.ysizeL]; omega
  rw [h1]
  simp only [parseLayoutF]
  rw [parse_node_fuel (by omega), parse_layout_fuel (by omega)]

lemma parse_node_not_hash {d : Yaml} (h : d.as_hash = none) :
    parse_node d = Except.error (PErr.err ConfigError.InvalidNode) := by
  obtain ⟨g, hg⟩ : ∃ g, Yaml.ysize d = g + 1 :=
    ⟨Yaml.ysize d - 1, by have := Yaml.ysize_pos d; omega⟩
  show parseNodeF (Yaml.ysize d) d = _
  rw [hg]
  cases d <;> simp [Yaml.as_hash] at h <;> simp [parseNodeF, Yaml.as_hash]

lemma parse_node_hash (es : List (Yaml × Yaml)) :
    parse_node (Yaml.hash es) =
      (match Yaml.hget es (Yaml.str "dir") with
      | none => Except.error (PErr.err (ConfigError.MissingField "dir"))
      | some dir_name =>
        match dir_name.as_str with
        | none => Except.error PErr.panic
        | some name => do
          let kws ← kwRes es name
          match Yaml.hget es (Yaml.str "sub") with
          | none => Except.ok [⟨[name], kws⟩]
          | some sv =>
            match sv.as_vec with
            | none => Except.error (PErr.err ConfigError.InvalidChildren)
            | some ds => do
              let sub ← parse_layout ds
              Except.ok (⟨[name], kws⟩ ::
                sub.map (fun it => ⟨name :: it.path, it.keywords ++ kws⟩))) := by
  show parseNodeF (Yaml.ysize (Yaml.hash es)) (Yaml.hash es) = _
  have h1 : Yaml.ysize (Yaml.hash es) = Yaml.ysizeP es + 1 := by
    simp [Yaml.ysize]; omega
  rw [h1]
  simp only [parseNodeF, Yaml.as_hash]
  cases hdir : Yaml.hget es (Yaml.str "dir") with
  | none => rfl
  | some dir_name =>
    cases hs : dir_name.as_str with
    | none => simp [hs]
    | some name =>
      cases hk : kwRes es name with
      | error e => simp [hs, hk, except_bind_ok, except_bind_error]
      | ok kws =>
        cases hsub : Yaml.hget es (Yaml.str "sub") with
        | none => simp [hs, hk, hsub, except_bind_ok, except_bind_error]
        | some sv =>
          cases hv : sv.as_vec with
          | none => simp [hs, hk, hsub, hv, except_bind_ok, except_bind_error]
          | some ds =>
            have hsz : Yaml.ysizeL ds ≤ Yaml.ysizeP es := by
              have hg := Yaml.ysize_hget hsub
              have h2 : Yaml.ysize sv = 1 + Yaml.ysizeL ds := by
                rw [Yaml.as_vec_eq hv]; simp [Yaml.ysize]
              omega
            simp [hs, hk, hsub, hv, except_bind_ok, except_bind_error, parse_layout_fuel hsz]

/-! ## Structural properties of the compiler -/

lemma Yaml.as_str_eq {v : Yaml} {s : String} (h : v.as_str = some s) :
    v = Yaml.str s := by
  cases v <;> simp [Yaml.as_str] at h <;> simp [h]

lemma kwStrings_ok {ws : List Yaml} (h : ∀ w ∈ ws, ∃ s, w = Yaml.str s) :
    ∃ ks, kwStrings ws = Except.ok ks := by
  induction ws with
  | nil => exact ⟨[], rfl⟩
  | cons y ys ih =>
    obtain ⟨s, hy⟩ := h y (by simp)
    obtain ⟨ks, hk⟩ := ih (fun x hx => h x (by simp [hx]))
    subst hy
    exact ⟨s :: ks, by simp [kwStrings, Yaml.as_str, hk, except_map_ok]⟩

lemma kwStrings_panic {ws : List Yaml} (h : ∃ w ∈ ws, w.as_str = none) :
    kwStrings ws = Except.error PErr.panic := by
  induction ws with
  | nil => simp at h
  | cons y ys ih =>
    cases hy : y.as_str with
    | none => simp [kwStrings, hy]
    | some s =>
      obtain ⟨w, hw, hnone⟩ := h
      rcases List.mem_cons.mp hw with h1 | h1
      · rw [h1] at hnone; rw [hnone] at hy; cases hy
      · have := ih ⟨w, h1, hnone⟩
        simp [kwStrings, hy, this, except_map_error]

lemma parse_layout_cons_error {d : Yaml} {rest : List Yaml} {e : PErr}
    (h : parse_node d = Except.error e) :
    parse_layout (d :: rest) = Except.error e := by
  rw [parse_layout_cons, h, except_bind_error]

/-- Destructor for a successful run of `parse_node`: the node is a hash
with a string `dir` value and resolvable keywords, and the output is the
node's own rule followed by the adjusted rules of its `sub` subtree. -/
lemma parse_node_ok_cases {d : Yaml} {rules : ClassifierPaths}
    (h : parse_node d = Except.ok rules) :
    ∃ es name kws,
      d = Yaml.hash es ∧
      Yaml.hget es (Yaml.str "dir") = some (Yaml.str name) ∧
      kwRes es name = Except.ok kws ∧
      ((rules = [⟨[name], kws⟩] ∧ Yaml.hget es (Yaml.str "sub") = none) ∨
       (∃ ds sub0, Yaml.hget es (Yaml.str "sub") = some (Yaml.arr ds) ∧
         parse_layout ds = Except.ok sub0 ∧
         rules = ⟨[name], kws⟩ ::
           sub0.map (fun it => ⟨name :: it.path, it.keywords ++ kws⟩))) := by
  cases d with
  | hash es =>
    rw [parse_node_hash] at h
    cases hdir : Yaml.hget es (Yaml.str "dir") with
    | none => simp only [hdir] at h; cases h
    | some v =>
      simp only [hdir] at h
      cases hv : v.as_str with
      | none => simp only [hv] at h; cases h
      | some name =>
        simp only [hv] at h
        cases hk : kwRes es name with
        | error e => rw [hk, except_bind_error] at h; cases h
        | ok kws =>
          rw [hk, except_bind_ok] at h
          refine ⟨es, name, kws, rfl, by rw [← Yaml.as_str_eq hv, hdir], hk, ?_⟩
          cases hsub : Yaml.hget es (Yaml.str "sub") with
          | none =>
            simp only [hsub] at h
            cases h
            exact Or.inl ⟨rfl, rfl⟩
          | some sv =>
            simp only [hsub] at h
            cases hv2 : sv.as_vec with
            | none => simp only [hv2] at h; cases h
            | some ds =>
              simp only [hv2] at h
              cases hl : parse_layout ds with
              | error e => rw [hl, except_bind_error] at h; cases h
              | ok sub0 =>
                rw [hl, except_bind_ok] at h
                cases h
                exact Or.inr ⟨ds, sub0, by rw [Yaml.as_vec_eq hv2], hl, rfl⟩
  | str s => rw [parse_node_not_hash (by rfl)] at h; cases h
  | int n => rw [parse_node_not_hash (by rfl)] at h; cases h
  | bool b => rw [parse_node_not_hash (by rfl)] at h; cases h
  | null => rw [parse_node_not_hash (by rfl)] at h; cases h
  | arr xs => rw [parse_node_not_hash (by rfl)] at h; cases h

/-- Every successful `parse_node` output starts with the node's own
rule. -/
lemma parse_node_ok_shape {d : Yaml} {rules : ClassifierPaths}
    (h : parse_node d = Except.ok rules) :
    ∃ own sub, rules = own :: sub := by
  obtain ⟨es, name, kws, _, _, _, hc⟩ := parse_node_ok_cases h
  rcases hc with ⟨h1, _⟩ | ⟨ds, sub0, _, _, h1⟩
  · exact ⟨⟨[name], kws⟩, [], h1⟩
  · exact ⟨⟨[name], kws⟩, _, h1⟩

/-- Every rule in the subtree block of a node extends that node's own
rule: its keyword list contains every parent keyword and its path
starts with the parent's path segment. -/
lemma parse_node_sub_extends {d : Yaml} {P : ClassifierPath}
    {sub : ClassifierPaths} (h : parse_node d = Except.ok (P :: sub)) :
    ∀ r ∈ sub, (∀ w ∈ P.keywords, w ∈ r.keywords) ∧ P.path <+: r.path := by
  obtain ⟨es, name, kws, _, _, _, hc⟩ := parse_node_ok_cases h
  rcases hc with ⟨h1, _⟩ | ⟨ds, sub0, _, _, h1⟩
  · cases h1
    simp
  · cases h1
    intro r hr
    obtain ⟨it, _, hit⟩ := List.mem_map.mp hr
    constructor
    · intro w hw
      rw [← hit]
      simp only
      exact List.mem_append.mpr (Or.inr hw)
    · rw [← hit]
      simp only
      exact ⟨it.path, rfl⟩

/-! ## Well-formed configuration trees and node counting -/

/-- A configuration node with none of the malformations the spec lists:
a hash whose `dir` value is a string, whose `keywords` value (when
present) is an array of strings, and whose `sub` value (when present)
is an array of well-formed nodes. -/
inductive WfNode : Yaml → Prop where
  | mk (es : List (Yaml × Yaml)) (name : String)
      (hdir : Yaml.hget es (Yaml.str "dir") = some (Yaml.str name))
      (hkw : Yaml.hget es (Yaml.str "keywords") = none ∨
        ∃ ws, Yaml.hget es (Yaml.str "keywords") = some (Yaml.arr ws) ∧
          ∀ w ∈ ws, ∃ s, w = Yaml.str s)
      (hsubshape : Yaml.hget es (Yaml.str "sub") = none ∨
        ∃ ds, Yaml.hget es (Yaml.str "sub") = some (Yaml.arr ds))
      (hsub : ∀ ds, Yaml.hget es (Yaml.str "sub") = some (Yaml.arr ds) →
        ∀ d2 ∈ ds, WfNode d2) :
      WfNode (Yaml.hash es)

mutual

/-- Fuel-indexed count of the configuration nodes of one subtree: the
node itself plus, when a `sub` array is present, the nodes of the
children's subtrees. -/
def countNodeF : Nat → Yaml → Nat
  | 0, _ => 0
  | fuel + 1, d =>
    match d.as_hash with
    | none => 1
    | some es =>
      match Yaml.hget es (Yaml.str "sub") with
      | none => 1
      | some sv =>
        match sv.as_vec with
        | none => 1
        | some ds => 1 + countListF fuel ds

/-- Fuel-indexed total node count of a list of sibling subtrees. -/
def countListF : Nat → List Yaml → Nat
  | 0, _ => 0
  | _ + 1, [] => 0
  | fuel + 1, d :: rest => countNodeF fuel d + countListF fuel rest

end

/-- Node count of one configuration subtree. -/
def countNode (d : Yaml) : Nat := countNodeF (Yaml.ysize d) d

/-- Total node count of a configuration tree. -/
def countList (xs : List Yaml) : Nat := countListF (Yaml.ysizeL xs) xs

lemma countF_step : ∀ fuel : Nat,
    (∀ d, Yaml.ysize d ≤ fuel → countNodeF (fuel + 1) d = countNodeF fuel d) ∧
    (∀ xs, Yaml.ysizeL xs ≤ fuel →
      countListF (fuel + 1) xs = countListF fuel xs) := by
  intro fuel
  induction fuel with
  | zero =>
    constructor
    · intro d hd
      have := Yaml.ysize_pos d
      omega
    · intro xs hxs
      have := Yaml.ysizeL_pos xs
      omega
  | succ f ih =>
    constructor
    · intro d hd
      cases d with
      | hash es =>
        simp only [countNodeF, Yaml.as_hash]
        cases hsub : Yaml.hget es (Yaml.str "sub") with
        | none => rfl
        | some sv =>
          cases hv : sv.as_vec with
          | none => simp [hv]
          | some ds =>
            have hsz : Yaml.ysizeL ds ≤ f := by
              have h1 := Yaml.ysize_hget hsub
              have h2 : Yaml.ysize sv = 1 + Yaml.ysizeL ds := by
                rw [Yaml.as_vec_eq hv]; simp [Yaml.ysize]
              simp [Yaml.ysize] at hd
              omega
            simp [hv, ih.2 ds hsz]
      | str s => rfl
      | int n => rfl
      | bool b => rfl
      | null => rfl
      | arr xs => rfl
    · intro xs hxs
      cases xs with
      | nil => rfl
      | cons d rest =>
        simp only [countListF]
        simp only [Yaml.ysizeL] at hxs
        have h1 : Yaml.ysize d ≤ f := by
          have := Yaml.ysizeL_pos rest
          omega
        have h2 : Yaml.ysizeL rest ≤ f := by
          have := Yaml.ysize_pos d
          omega
        rw [ih.1 d h1, ih.2 rest h2]

lemma countNodeF_mono (k fuel : Nat) (d : Yaml) (h : Yaml.ysize d ≤ fuel) :
    countNodeF (fuel + k) d = countNodeF fuel d := by
  induction k with
  | zero => rfl
  | succ n ih =>
    have : fuel + (n + 1) = (fuel + n) + 1 := by omega
    rw [this, (countF_step (fuel + n)).1 d (by omega), ih]

lemma countListF_mono (k fuel : Nat) (xs : List Yaml)
    (h : Yaml.ysizeL xs ≤ fuel) :
    countListF (fuel + k) xs = countListF fuel xs := by
  induction k with
  | zero => rfl
  | succ n ih =>
    have : fuel + (n + 1) = (fuel + n) + 1 := by omega
    rw [this, (countF_step (fuel + n)).2 xs (by omega), ih]

lemma countList_fuel {fuel : Nat} {xs : List Yaml}
    (h : Yaml.ysizeL xs ≤ fuel) : countListF fuel xs = countList xs := by
  unfold countList
  have h1 : fuel = Yaml.ysizeL xs + (fuel - Yaml.ysizeL xs) := by omega
  rw [h1, countListF_mono _ _ _ (by omega)]

lemma countList_nil : countList [] = 0 := rfl

lemma countList_cons (d : Yaml) (rest : List Yaml) :
    countList (d :: rest) = countNode d + countList rest := by
  show countListF (Yaml.ysizeL (d :: rest)) (d :: rest) = _
  have h1 : Yaml.ysizeL (d :: rest) = (Yaml.ysize d + Yaml.ysizeL rest) + 1 := by
    simp [Yaml.ysizeL]; omega
  rw [h1]
  simp only [countListF]
  congr 1
  · exact countNodeF_mono (Yaml.ysizeL rest) (Yaml.ysize d) d (le_refl _)
  · exact countList_fuel (by omega)

lemma countNode_hash_nosub {es : List (Yaml × Yaml)}
    (h : Yaml.hget es (Yaml.str "sub") = none) :
    countNode (Yaml.hash es) = 1 := by
  show countNodeF (Yaml.ysize (Yaml.hash es)) (Yaml.hash es) = 1
  have h1 : Yaml.ysize (Yaml.hash es) = Yaml.ysizeP es + 1 := by
    simp [Yaml.ysize]; omega
  rw [h1]
  simp [countNodeF, Yaml.as_hash, h]

lemma countNode_hash_sub {es : List (Yaml × Yaml)} {ds : List Yaml}
    (h : Yaml.hget es (Yaml.str "sub") = some (Yaml.arr ds)) :
    countNode (Yaml.hash es) = 1 + countList ds := by
  show countNodeF (Yaml.ysize (Yaml.hash es)) (Yaml.hash es) = _
  have h1 : Yaml.ysize (Yaml.hash es) = Yaml.ysizeP es + 1 := by
    simp [Yaml.ysize]; omega
  rw [h1]
  simp only [countNodeF, Yaml.as_hash, h, Yaml.as_vec]
  have hsz : Yaml.ysizeL ds ≤ Yaml.ysizeP es := by
    have hg := Yaml.ysize_hget h
    simp [Yaml.ysize] at hg
    omega
  rw [countList_fuel hsz]

/-- Compilation of a well-formed tree succeeds and produces exactly
one rule per configuration node; proved by strong induction on the
structural size of the tree. -/
lemma parse_layout_wf_aux : ∀ n : Nat, ∀ layout : List Yaml,
    Yaml.ysizeL layout ≤ n → (∀ d ∈ layout, WfNode d) →
    ∃ rules, parse_layout layout = Except.ok rules ∧
      rules.length = countList layout := by
  intro n
  induction n using Nat.strong_induction_on with
  | _ n ih =>
    intro layout hsz hwf
    cases layout with
    | nil => exact ⟨[], parse_layout_nil, by rw [countList_nil]; rfl⟩
    | cons d rest =>
      have hwd := hwf d (by simp)
      cases hwd with
      | mk es name hdir hkw hsubshape hsub =>
        simp only [Yaml.ysizeL, Yaml.ysize] at hsz
        obtain ⟨kws, hkres⟩ : ∃ kws, kwRes es name = Except.ok kws := by
          rcases hkw with h1 | ⟨ws, h1, h2⟩
          · exact ⟨[], by simp [kwRes, h1]⟩
          · obtain ⟨ks, hk⟩ := kwStrings_ok h2
            exact ⟨ks, by simp [kwRes, h1, Yaml.as_vec, hk]⟩
        obtain ⟨nrules, hnode, hnlen⟩ :
            ∃ nrules, parse_node (Yaml.hash es) = Except.ok nrules ∧
              nrules.length = countNode (Yaml.hash es) := by
          rcases hsubshape with h1 | ⟨ds, h1⟩
          · refine ⟨[⟨[name], kws⟩], ?_, ?_⟩
            · rw [parse_node_hash, hdir]
              simp [Yaml.as_str, hkres, except_bind_ok, h1]
            · rw [countNode_hash_nosub h1]; rfl
          · have hds : Yaml.ysizeL ds < n := by
              have hg := Yaml.ysize_hget h1
              simp [Yaml.ysize] at hg
              have := Yaml.ysizeL_pos rest
              omega
            obtain ⟨subRules, hsubr, hslen⟩ :=
              ih (Yaml.ysizeL ds) hds ds (le_refl _) (hsub ds h1)
            refine ⟨⟨[name], kws⟩ ::
              subRules.map (fun it => ⟨name :: it.path, it.keywords ++ kws⟩),
              ?_, ?_⟩
            · rw [parse_node_hash, hdir]
              simp [Yaml.as_str, hkres, except_bind_ok, h1, Yaml.as_vec, hsubr]
            · rw [countNode_hash_sub h1]
              simp [hslen]
              omega
        have hrlt : Yaml.ysizeL rest < n := by
          have := Yaml.ysize_pos (Yaml.hash es)
          simp [Yaml.ysize] at this
          omega
        obtain ⟨restRules, hrestr, hrlen⟩ :=
          ih (Yaml.ysizeL rest) hrlt rest (le_refl _)
            (fun x hx => hwf x (by simp [hx]))
        refine ⟨nrules ++ restRules, ?_, ?_⟩
        · rw [parse_layout_cons, hnode, except_bind_ok, hrestr, except_bind_ok]
        · rw [countList_cons]
          simp [hnlen, hrlen]

/-! ## Concrete configuration trees used in the examples -/

/-- The `electric` child node of the spec's end-to-end example. -/
def electricNode : Yaml :=
  Yaml.hash [(Yaml.str "dir", Yaml.str "electric"),
             (Yaml.str "keywords", Yaml.arr [Yaml.str "kwh"])]

/-- The `bills` root node of the spec's end-to-end example. -/
def billsNode : Yaml :=
  Yaml.hash [(Yaml.str "dir", Yaml.str "bills"),
             (Yaml.str "keywords", Yaml.arr [Yaml.str "bill"]),
             (Yaml.str "sub", Yaml.arr [electricNode])]

/-- The configuration tree of the spec's end-to-end example. -/
def billsTree : List Yaml := [billsNode]

/-- Well-formedness of the example tree. -/
lemma billsTree_wf : ∀ d ∈ billsTree, WfNode d := by
  intro d hd
  simp [billsTree] at hd
  subst hd
  refine WfNode.mk _ "bills" (by rfl)
    (Or.inr ⟨[Yaml.str "bill"], by rfl, ?_⟩)
    (Or.inr ⟨[electricNode], by rfl⟩) ?_
  · intro w hw
    simp [billsNode] at hw
    exact ⟨"bill", hw⟩
  · intro ds hds d2 hd2
    have hds2 : ds = [electricNode] := by
      have : some (Yaml.arr ds) = some (Yaml.arr [electricNode]) := by
        rw [← hds]; rfl
      simp at this
      exact this
    subst hds2
    simp at hd2
    subst hd2
    refine WfNode.mk _ "electric" (by rfl)
      (Or.inr ⟨[Yaml.str "kwh"], by rfl, ?_⟩)
      (Or.inl (by rfl)) ?_
    · intro w hw
      simp [electricNode] at hw
      exact ⟨"kwh", hw⟩
    · intro ds2 hds2
      have : some (Yaml.arr ds2) = none := by rw [← hds2]; rfl
      cases this

/-! ## Properties of the matcher -/

lemma allKw_of_all {text : String} {l : List String}
    (h : ∀ w ∈ l, wordMatch w text = Except.ok true) :
    allKw text l = Except.ok true := by
  induction l with
  | nil => rfl
  | cons w ws ih =>
    have hw := h w (by simp)
    simp [allKw, hw, except_bind_ok]
    exact ih (fun x hx => h x (by simp [hx]))

lemma allKw_true_mem {text : String} {l : List String}
    (h : allKw text l = Except.ok true) :
    ∀ w ∈ l, wordMatch w text = Except.ok true := by
  induction l with
  | nil => simp
  | cons w ws ih =>
    simp only [allKw] at h
    cases hw : wordMatch w text with
    | error e => rw [hw, except_bind_error] at h; cases h
    | ok b =>
      rw [hw, except_bind_ok] at h
      cases b with
      | false => simp at h
      | true =>
        simp only at h
        intro x hx
        rcases List.mem_cons.mp hx with h1 | h1
        · rw [h1]; exact hw
        · exact ih h x h1

lemma matchesM_ok_true {p : ClassifierPath} {text : String} :
    p.matchesM text = Except.ok true ↔
      (p.keywords ≠ [] ∧ ∀ w ∈ p.keywords, wordMatch w text = Except.ok true) := by
  constructor
  · intro h
    simp only [ClassifierPath.matchesM] at h
    cases ha : allKw text p.keywords with
    | error e => rw [ha, except_bind_error] at h; cases h
    | ok b =>
      rw [ha, except_bind_ok] at h
      have hb : (!p.keywords.isEmpty && b) = true := by
        cases hx : (!p.keywords.isEmpty && b) with
        | true => rfl
        | false => rw [hx] at h; cases h
      have h1 : p.keywords.isEmpty = false := by
        cases hy : p.keywords.isEmpty <;> simp [hy] at hb ⊢
      have h2 : b = true := by
        cases hz : b <;> simp [hz] at hb ⊢
      refine ⟨by simpa using h1, ?_⟩
      rw [h2] at ha
      exact allKw_true_mem ha
  · rintro ⟨h1, h2⟩
    have ha := allKw_of_all h2
    simp [ClassifierPath.matchesM, ha, except_bind_ok, h1]

lemma matchesM_empty {p : ClassifierPath} (h : p.keywords = []) (text : String) :
    p.matchesM text = Except.ok false := by
  simp [ClassifierPath.matchesM, h, allKw, except_bind_ok]

lemma classify_mem_matches {text : String} {rules res : ClassifierPaths}
    (h : classify_matches text rules = Except.ok res) :
    ∀ r ∈ res, r.matchesM text = Except.ok true := by
  induction rules generalizing res with
  | nil =>
    simp only [classify_matches] at h
    cases h
    simp
  | cons r rs ih =>
    simp only [classify_matches] at h
    cases hm : r.matchesM text with
    | error e => rw [hm, except_bind_error] at h; cases h
    | ok b =>
      rw [hm, except_bind_ok] at h
      cases hc : classify_matches text rs with
      | error e => rw [hc, except_bind_error] at h; cases h
      | ok rest =>
        rw [hc, except_bind_ok] at h
        cases h
        intro x hx
        cases b with
        | true =>
          simp only [if_true] at hx
          rcases List.mem_cons.mp hx with h1 | h1
          · rw [h1]; exact hm
          · exact ih hc x h1
        | false =>
          simp only [Bool.false_eq_true, if_false] at hx
          exact ih hc x hx

example : wordMatch "bill" "monthly bill: 40 kwh used" = Except.ok true := by decide
example : wordMatch "cat" "category" = Except.ok false := by decide
example : wordMatch "cat" "a cat sat" = Except.ok true := by decide
example : wordMatch "(" "anything" = Except.error PErr.panic := by decide
example : wordMatch "a.b" "axb" = Except.ok true := by decide

/-! ## Claims -/

/-- C1: the claim states the word-boundary matcher treats every keyword
as literal text and that construction never fails, so that
`ClassifierPath::matches` never panics.  The code embeds the keyword
unescaped in the pattern, so a keyword consisting of a lone `(` makes
`Regex::new` fail and the `unwrap` panic, and a keyword containing `.`
is matched as a wildcard rather than literally: the text `axb` matches
keyword `a.b` although `a.b` never occurs in it as a substring. -/
theorem C1_matcher_panics_and_is_not_literal :
    ClassifierPath.matchesM ⟨["p"], ["("]⟩ "Total due (USD): 40" =
      Except.error PErr.panic ∧
    ClassifierPath.matchesM ⟨["p"], ["a.b"]⟩ "axb" = Except.ok true ∧
    ¬ ("a.b".data <:+: "axb".data) := by decide

/-- C2: the claim states the matching pass keeps exactly the rules all
of whose keywords occur in the text as whole-word substrings.  The
filtering structure is as claimed, but the per-keyword test is an
unescaped regex match: for the rule with keyword `.` and the text `x`,
the pass returns the rule although `.` does not occur in `x` at all. -/
theorem C2_matching_is_regex_not_substring :
    classify_matches "x" [⟨["p"], ["."]⟩] = Except.ok [⟨["p"], ["."]⟩] ∧
    ¬ (".".data <:+: "x".data) := by decide

/-- C3: for every configuration tree with no malformed nodes,
compilation succeeds and produces exactly one rule per configuration
node; an empty tree is the vacuous instance and yields the empty rule
list. -/
theorem C3_wellformed_compiles_one_rule_per_node (layout : List Yaml)
    (hwf : ∀ d ∈ layout, WfNode d) :
    ∃ rules, parse_layout layout = Except.ok rules ∧
      rules.length = countList layout :=
  parse_layout_wf_aux (Yaml.ysizeL layout) layout (le_refl _) hwf

/-- Witness for C3 at the concrete example tree. -/
theorem C3_witness :
    ∃ rules, parse_layout billsTree = Except.ok rules ∧
      rules.length = countList billsTree :=
  C3_wellformed_compiles_one_rule_per_node billsTree billsTree_wf

/-- C4: every rule compiled from a node of a subtree below a node `d`
has a keyword list containing every keyword of the rule compiled for
`d` itself, and its destination path starts with `d`'s destination
path, segments ordered root to leaf. -/
theorem C4_child_rule_extends_parent_rule (d : Yaml) (P : ClassifierPath)
    (sub : ClassifierPaths) (h : parse_node d = Except.ok (P :: sub)) :
    ∀ r ∈ sub, (∀ w ∈ P.keywords, w ∈ r.keywords) ∧ P.path <+: r.path :=
  parse_node_sub_extends h

/-- Witness for C4 at the concrete example tree. -/
theorem C4_witness :
    ("bill" ∈ (⟨["bills", "electric"], ["kwh", "bill"]⟩ : ClassifierPath).keywords) ∧
    ["bills"] <+: (⟨["bills", "electric"], ["kwh", "bill"]⟩ : ClassifierPath).path := by
  have h := C4_child_rule_extends_parent_rule billsNode ⟨["bills"], ["bill"]⟩
    [⟨["bills", "electric"], ["kwh", "bill"]⟩] (by decide)
    ⟨["bills", "electric"], ["kwh", "bill"]⟩ (by decide)
  exact ⟨h.1 "bill" (by decide), h.2⟩

/-- C5: a rule with an empty keyword set matches no text at all and is
never part of the matching pass's output. -/
theorem C5_empty_keywords_never_match (r : ClassifierPath)
    (hk : r.keywords = []) :
    (∀ text, r.matchesM text = Except.ok false) ∧
    (∀ rules text res, classify_matches text rules = Except.ok res →
      r ∉ res) := by
  refine ⟨matchesM_empty hk, ?_⟩
  intro rules text res h hmem
  have hm := classify_mem_matches h r hmem
  rw [matchesM_empty hk] at hm
  cases hm

/-- Witness for C5 at a concrete keyword-free rule. -/
theorem C5_witness :
    ((⟨["dst"], []⟩ : ClassifierPath).matchesM "" = Except.ok false) ∧
    (⟨["dst"], []⟩ : ClassifierPath) ∉ ([] : ClassifierPaths) :=
  ⟨(C5_empty_keywords_never_match ⟨["dst"], []⟩ rfl).1 "",
   (C5_empty_keywords_never_match ⟨["dst"], []⟩ rfl).2
     [⟨["dst"], []⟩] "" [] (by decide)⟩

/-- A node whose keywords value is an array containing a non-string
element; the keyword extraction unwrap panics on it. -/
def badKwNode : Yaml :=
  Yaml.hash [(Yaml.str "dir", Yaml.str "a"),
             (Yaml.str "keywords", Yaml.arr [Yaml.int 5])]

/-- Counterexample for C6: on a node whose keywords field is a list
containing a non-string element, compilation panics instead of
returning the claimed `InvalidKeywords` configuration error. -/
theorem C6_counterexample :
    parse_layout [badKwNode] = Except.error PErr.panic ∧
    ∀ e : ConfigError, parse_layout [badKwNode] ≠ Except.error (PErr.err e) := by
  refine ⟨by decide, ?_⟩
  intro e h
  have h1 : parse_layout [badKwNode] = Except.error PErr.panic := by decide
  rw [h1] at h
  simp at h

/-- C6 as amended: compilation fails on the first malformed node with
the error the code actually produces there — `InvalidNode` for a
non-hash node, `MissingField "dir"` for a missing dir key,
`InvalidKeywords` naming the node's own dir for a keywords value that
is not a list, a panic (not a `ConfigError`) for a keywords list with a
non-string element, and `InvalidChildren` for a sub value that is not a
list; the first failing node's error aborts the whole compilation with
no aggregation and no partial output. -/
theorem C6_amended_error_taxonomy_fail_fast (d : Yaml) (rest : List Yaml) :
    (d.as_hash = none →
      parse_layout (d :: rest) =
        Except.error (PErr.err ConfigError.InvalidNode)) ∧
    (∀ es, d = Yaml.hash es → Yaml.hget es (Yaml.str "dir") = none →
      parse_layout (d :: rest) =
        Except.error (PErr.err (ConfigError.MissingField "dir"))) ∧
    (∀ es name kv, d = Yaml.hash es →
      Yaml.hget es (Yaml.str "dir") = some (Yaml.str name) →
      Yaml.hget es (Yaml.str "keywords") = some kv → kv.as_vec = none →
      parse_layout (d :: rest) =
        Except.error (PErr.err (ConfigError.InvalidKeywords [name]))) ∧
    (∀ es name ws, d = Yaml.hash es →
      Yaml.hget es (Yaml.str "dir") = some (Yaml.str name) →
      Yaml.hget es (Yaml.str "keywords") = some (Yaml.arr ws) →
      (∃ w ∈ ws, w.as_str = none) →
      parse_layout (d :: rest) = Except.error PErr.panic) ∧
    (∀ es name kws sv, d = Yaml.hash es →
      Yaml.hget es (Yaml.str "dir") = some (Yaml.str name) →
      kwRes es name = Except.ok kws →
      Yaml.hget es (Yaml.str "sub") = some sv → sv.as_vec = none →
      parse_layout (d :: rest) =
        Except.error (PErr.err ConfigError.InvalidChildren)) ∧
    (∀ e, parse_node d = Except.error e →
      parse_layout (d :: rest) = Except.error e) := by
  refine ⟨?_, ?_, ?_, ?_, ?_, ?_⟩
  · intro h
    exact parse_layout_cons_error (parse_node_not_hash h)
  · intro es hd h
    subst hd
    refine parse_layout_cons_error ?_
    rw [parse_node_hash, h]
  · intro es name kv hd hdir hkw hvec
    subst hd
    refine parse_layout_cons_error ?_
    have hk : kwRes es name =
        Except.error (PErr.err (ConfigError.InvalidKeywords [name])) := by
      simp [kwRes, hkw, hvec]
    rw [parse_node_hash, hdir]
    simp [Yaml.as_str, hk, except_bind_error]
  · intro es name ws hd hdir hkw hex
    subst hd
    refine parse_layout_cons_error ?_
    have hk : kwRes es name = Except.error PErr.panic := by
      simp [kwRes, hkw, Yaml.as_vec, kwStrings_panic hex]
    rw [parse_node_hash, hdir]
    simp [Yaml.as_str, hk, except_bind_error]
  · intro es name kws sv hd hdir hkres hsub hvec
    subst hd
    refine parse_layout_cons_error ?_
    rw [parse_node_hash, hdir]
    simp [Yaml.as_str, hkres, except_bind_ok, hsub, hvec]
  · intro e h
    exact parse_layout_cons_error h

/-- Witness for the amended C6: each error case evaluated at a concrete
malformed node. -/
theorem C6_witness :
    parse_layout [Yaml.int 3] =
      Except.error (PErr.err ConfigError.InvalidNode) ∧
    parse_layout [Yaml.hash []] =
      Except.error (PErr.err (ConfigError.MissingField "dir")) ∧
    parse_layout [Yaml.hash [(Yaml.str "dir", Yaml.str "a"),
        (Yaml.str "keywords", Yaml.int 5)]] =
      Except.error (PErr.err (ConfigError.InvalidKeywords ["a"])) ∧
    parse_layout [badKwNode] = Except.error PErr.panic ∧
    parse_layout [Yaml.hash [(Yaml.str "dir", Yaml.str "a"),
        (Yaml.str "sub", Yaml.int 7)]] =
      Except.error (PErr.err ConfigError.InvalidChildren) ∧
    parse_layout [Yaml.int 3] =
      Except.error (PErr.err ConfigError.InvalidNode) :=
  ⟨(C6_amended_error_taxonomy_fail_fast (Yaml.int 3) []).1 (by rfl),
   (C6_amended_error_taxonomy_fail_fast (Yaml.hash []) []).2.1 [] rfl (by rfl),
   (C6_amended_error_taxonomy_fail_fast _ []).2.2.1 _ "a" (Yaml.int 5)
     rfl (by rfl) (by rfl) (by rfl),
   (C6_amended_error_taxonomy_fail_fast badKwNode []).2.2.2.1 _ "a"
     [Yaml.int 5] rfl (by rfl) (by rfl) ⟨Yaml.int 5, by simp, rfl⟩,
   (C6_amended_error_taxonomy_fail_fast _ []).2.2.2.2.1 _ "a" [] (Yaml.int 7)
     rfl (by rfl) (by rfl) (by rfl) (by rfl),
   (C6_amended_error_taxonomy_fail_fast (Yaml.int 3) []).2.2.2.2.2
     (PErr.err ConfigError.InvalidNode) (by decide)⟩

/-- C7: the compiled rule list decomposes into one contiguous block per
top-level node, blocks in input order, and each block is the node's own
rule followed immediately by the rules of its descendants. -/
theorem C7_rules_in_preorder_blocks (layout : List Yaml)
    (rules : ClassifierPaths) (h : parse_layout layout = Except.ok rules) :
    ∃ blocks : List ClassifierPaths,
      rules = blocks.flatten ∧
      List.Forall₂ (fun d blk => ∃ own sub, blk = own :: sub ∧
        parse_node d = Except.ok (own :: sub)) layout blocks := by
  induction layout generalizing rules with
  | nil =>
    rw [parse_layout_nil] at h
    cases h
    exact ⟨[], by simp, List.Forall₂.nil⟩
  | cons d rest ih =>
    rw [parse_layout_cons] at h
    cases hn : parse_node d with
    | error e => rw [hn, except_bind_error] at h; cases h
    | ok node =>
      rw [hn, except_bind_ok] at h
      cases hr : parse_layout rest with
      | error e => rw [hr, except_bind_error] at h; cases h
      | ok r =>
        rw [hr, except_bind_ok] at h
        cases h
        obtain ⟨blocks, hb1, hb2⟩ := ih r hr
        obtain ⟨own, sub, hshape⟩ := parse_node_ok_shape hn
        refine ⟨node :: blocks, by simp [hb1], ?_⟩
        exact List.Forall₂.cons ⟨own, sub, hshape, by rw [← hshape]; exact hn⟩ hb2

/-- Witness for C7 at the concrete example tree. -/
theorem C7_witness :
    ∃ blocks : List ClassifierPaths,
      [(⟨["bills"], ["bill"]⟩ : ClassifierPath),
       ⟨["bills", "electric"], ["kwh", "bill"]⟩] = blocks.flatten ∧
      List.Forall₂ (fun d blk => ∃ own sub, blk = own :: sub ∧
        parse_node d = Except.ok (own :: sub)) billsTree blocks :=
  C7_rules_in_preorder_blocks billsTree
    [⟨["bills"], ["bill"]⟩, ⟨["bills", "electric"], ["kwh", "bill"]⟩]
    (by decide)

/-- C8: the spec's end-to-end example: the example tree compiles to the
two expected rules, the text mentioning both keywords matches both
rules, the text mentioning only `bill` matches only the root rule, and
the text mentioning only `kwh` matches neither. -/
theorem C8_end_to_end_example :
    parse_layout billsTree = Except.ok
      [⟨["bills"], ["bill"]⟩, ⟨["bills", "electric"], ["kwh", "bill"]⟩] ∧
    classify_matches "monthly bill: 40 kwh used"
      [⟨["bills"], ["bill"]⟩, ⟨["bills", "electric"], ["kwh", "bill"]⟩] =
      Except.ok
        [⟨["bills"], ["bill"]⟩, ⟨["bills", "electric"], ["kwh", "bill"]⟩] ∧
    classify_matches "monthly bill"
      [⟨["bills"], ["bill"]⟩, ⟨["bills", "electric"], ["kwh", "bill"]⟩] =
      Except.ok [⟨["bills"], ["bill"]⟩] ∧
    classify_matches "kwh used"
      [⟨["bills"], ["bill"]⟩, ⟨["bills", "electric"], ["kwh", "bill"]⟩] =
      Except.ok [] := by decide

/-- C9: matching is upward monotone along the tree.  If `P` is the rule
a node compiles to and `r` any rule of that node's subtree, then in the
final rule list both appear extended by the same ancestral context
(path prefix `pre`, inherited keywords `K`): whenever the extended `r`
matches a text and the extended `P` has any keyword, the extended `P`
matches that text as well, because `r`'s keyword list contains every
keyword of `P` and matching is conjunctive. -/
theorem C9_descendant_match_implies_ancestor_match
    (d : Yaml) (P r : ClassifierPath) (sub : ClassifierPaths)
    (pre K : List String) (text : String)
    (h : parse_node d = Except.ok (P :: sub)) (hr : r ∈ sub)
    (hne : P.keywords ++ K ≠ [])
    (hm : ClassifierPath.matchesM ⟨pre ++ r.path, r.keywords ++ K⟩ text =
      Except.ok true) :
    ClassifierPath.matchesM ⟨pre ++ P.path, P.keywords ++ K⟩ text =
      Except.ok true := by
  have hsup := (parse_node_sub_extends h r hr).1
  rw [matchesM_ok_true] at hm
  obtain ⟨hne2, hall⟩ := hm
  rw [matchesM_ok_true]
  refine ⟨hne, ?_⟩
  intro w hw
  rcases List.mem_append.mp hw with h1 | h1
  · exact hall w (List.mem_append.mpr (Or.inl (hsup w h1)))
  · exact hall w (List.mem_append.mpr (Or.inr h1))

/-- Witness for C9 at the concrete example: the child rule matches the
example text, hence so does the parent rule. -/
theorem C9_witness :
    ClassifierPath.matchesM ⟨[] ++ ["bills"], ["bill"] ++ []⟩
      "monthly bill: 40 kwh used" = Except.ok true :=
  C9_descendant_match_implies_ancestor_match billsNode ⟨["bills"], ["bill"]⟩
    ⟨["bills", "electric"], ["kwh", "bill"]⟩
    [⟨["bills", "electric"], ["kwh", "bill"]⟩] [] []
    "monthly bill: 40 kwh used" (by decide) (by decide) (by decide) (by decide)

/-- C10: a node whose `dir` value is present but not a string makes
compilation panic (the `unwrap` on the failed string conversion) rather
than return any `ConfigError`. -/
theorem C10_nonstring_dir_panics (es : List (Yaml × Yaml)) (v : Yaml)
    (rest : List Yaml) (hv : Yaml.hget es (Yaml.str "dir") = some v)
    (hs : v.as_str = none) :
    parse_layout (Yaml.hash es :: rest) = Except.error PErr.panic ∧
    ∀ e : ConfigError,
      parse_layout (Yaml.hash es :: rest) ≠ Except.error (PErr.err e) := by
  have hn : parse_node (Yaml.hash es) = Except.error PErr.panic := by
    rw [parse_node_hash, hv]
    simp [hs]
  have h1 : parse_layout (Yaml.hash es :: rest) = Except.error PErr.panic :=
    parse_layout_cons_error hn
  refine ⟨h1, ?_⟩
  intro e h2
  rw [h1] at h2
  simp at h2

/-- Witness for C10 at a concrete node with an integer dir value. -/
theorem C10_witness :
    parse_layout [Yaml.hash [(Yaml.str "dir", Yaml.int 3)]] =
      Except.error PErr.panic ∧
    ∀ e : ConfigError,
      parse_layout [Yaml.hash [(Yaml.str "dir", Yaml.int 3)]] ≠
        Except.error (PErr.err e) :=
  C10_nonstring_dir_panics [(Yaml.str "dir", Yaml.int 3)] (Yaml.int 3) []
    (by rfl) (by rfl)
